import Mathlib

/-!
# sing-geoip: the build driver of `main.go`

A shallow embedding of `parse`, `newWriter`, `open`, `write` and `local`.
The external collaborators (protobuf decoding, the case tables of the `unicode`
package, the `maxminddb` reader, the `mmdbwriter` tree, the operating system's
files, the order in which the Go runtime enumerates a map) are explicit parameters; every call the driver makes
on the tree library is recorded in a call log carried by the world state.
-/

set_option autoImplicit false

namespace SingGeoip

/-! ## Data model -/

/-- A Go byte slice; every element is below 256. The nil slice is the empty list. -/
abbrev Bytes := List Nat

/-- Go's `net.IPNet`: an address and a mask, both byte slices. -/
structure IPNet where
  IP : Bytes
  Mask : Bytes
deriving DecidableEq, Repr

/-- One `routercommon.CIDR` of the decoded input: raw address bytes and a `uint32` prefix length. -/
structure CIDR where
  Ip : Bytes
  Prefix : Nat
deriving DecidableEq, Repr

/-- One `routercommon.GeoIP` entry of the decoded input. -/
structure GeoIP where
  CountryCode : String
  Cidr : List CIDR
deriving DecidableEq, Repr

/-- A Go `map[string]V`, kept as its entries; the keys are pairwise distinct when the
map is built with `GoMap.set` only. -/
abbrev GoMap (V : Type) := List (String × V)

/-- Map read `m[k]` in its two-valued form. -/
def GoMap.get? {V : Type} : GoMap V → String → Option V
  | [], _ => none
  | (k', v) :: rest, k => if k' = k then some v else GoMap.get? rest k

/-- Map assignment `m[k] = v`. -/
def GoMap.set {V : Type} : GoMap V → String → V → GoMap V
  | [], k, v => [(k, v)]
  | (k', v') :: rest, k, v => if k' = k then (k', v) :: rest else (k', v') :: GoMap.set rest k v

/-- The keys of a map. -/
def GoMap.keys {V : Type} (m : GoMap V) : List String := m.map Prod.fst

/-! ## Standard-library functions used by the driver -/

/-- Go's `unicode.ToLower`: a rune up to `MaxASCII` is shifted by `'a' - 'A'` when it lies in
`'A'..'Z'` and is kept otherwise; a rune above `MaxASCII` goes through the case tables of the
`unicode` package, which are not among the sources and are the parameter `table`. -/
def unicodeToLower (table : Char → Char) (r : Char) : Char :=
  if r.toNat ≤ 127 then
    if 65 ≤ r.toNat ∧ r.toNat ≤ 90 then Char.ofNat (r.toNat + 32) else r
  else table r

/-- Go's `strings.ToLower` on a valid UTF-8 string (a proto3 string field is one): a string of
ASCII characters is returned as it is when it has no capital letter and with its capital
letters shifted otherwise; any other string is `strings.Map(unicode.ToLower, s)`. -/
def ToLower (table : Char → Char) (s : String) : String :=
  let isASCII := s.data.all (fun c => decide (c.toNat < 128))
  let hasUpper := s.data.any (fun c => decide (65 ≤ c.toNat ∧ c.toNat ≤ 90))
  if isASCII then
    if !hasUpper then s
    else ⟨s.data.map (fun c => if 65 ≤ c.toNat ∧ c.toNat ≤ 90 then Char.ofNat (c.toNat + 32) else c)⟩
  else ⟨s.data.map (unicodeToLower table)⟩

/-- The loop of Go's `net.CIDRMask` over `l` bytes with `n` one-bits left:
`0xff` while `n >= 8`, then `^byte(0xff >> n)` and `n = 0`. -/
def maskLoop : Nat → Nat → Bytes
  | 0, _ => []
  | l + 1, n => if 8 ≤ n then 255 :: maskLoop l (n - 8) else (255 - 255 / 2 ^ n) :: maskLoop l 0

/-- Go's `net.CIDRMask(ones, bits)`: nil unless `bits` is 32 or 128 and `0 <= ones <= bits`. -/
def CIDRMask (ones bits : Int) : Bytes :=
  if bits ≠ 8 * 4 ∧ bits ≠ 8 * 16 then []
  else if ones < 0 ∨ ones > bits then []
  else maskLoop (bits / 8).toNat ones.toNat

/-! ## parse (main.go 69-88) -/

/-- The `net.IPNet` built for one CIDR (lines 79-83): the raw address and
`net.CIDRMask(int(cidr.Prefix), 8*len(ip))`; `int` has 64 bits, so the `uint32` prefix length
converts without wrapping. -/
def cidrToIPNet (cidr : CIDR) : IPNet :=
  let ip := cidr.Ip
  { IP := ip, Mask := CIDRMask (Int.ofNat cidr.Prefix) (8 * Int.ofNat ip.length) }

/-- The inner loop of `parse` (lines 78-85): one `IPNet` per CIDR, appended under `code`;
reading a missing key gives the nil slice. -/
def parseCidrs (code : String) : List CIDR → GoMap (List IPNet) → GoMap (List IPNet)
  | [], countryMap => countryMap
  | cidr :: rest, countryMap =>
    let ipNet := cidrToIPNet cidr
    parseCidrs code rest (countryMap.set code ((countryMap.get? code).getD [] ++ [ipNet]))

/-- The outer loop of `parse` (lines 76-86); `table` is the case table of `strings.ToLower`. -/
def parseEntries (table : Char → Char) : List GeoIP → GoMap (List IPNet) → GoMap (List IPNet)
  | [], countryMap => countryMap
  | geoip :: rest, countryMap =>
    let code := ToLower table geoip.CountryCode
    parseEntries table rest (parseCidrs code geoip.Cidr countryMap)

/-- Function `parse`: decode with `proto.Unmarshal` (a parameter), then fill the map. -/
def parse (table : Char → Char) (unmarshal : Bytes → Except String (List GeoIP))
    (binary : Bytes) : Except String (GoMap (List IPNet)) :=
  match unmarshal binary with
  | .error err => .error err
  | .ok entry => .ok (parseEntries table entry [])

/-! ## More library functions -/

/-- Byte-wise string order of Go (`a < b`), on the characters of the two strings. -/
def strLess (a b : String) : Bool := decide (a.data.map Char.toNat < b.data.map Char.toNat)

/-- Insert one string into an ascending list. -/
def sortedInsert (a : String) : List String → List String
  | [] => [a]
  | b :: rest => if strLess b a then b :: sortedInsert a rest else a :: b :: rest

/-- Go's `sort.Strings`: the strings in ascending order. -/
def sortStrings : List String → List String
  | [] => []
  | a :: rest => sortedInsert a (sortStrings rest)

/-- The function `common.Contains` of sagernet/sing: a linear search with `==`. -/
def Contains : List String → String → Bool
  | [], _ => false
  | a :: rest, target => if target = a then true else Contains rest target

/-- The function `common.Filter` of sagernet/sing: the elements accepted by `block`, in order. -/
def Filter (arr : List String) (block : String → Bool) : List String :=
  go arr []
where
  /-- The loop of `Filter`, appending to `retArr`. -/
  go : List String → List String → List String
    | [], retArr => retArr
    | it :: rest, retArr => if block it then go rest (retArr ++ [it]) else go rest retArr

/-! ## The tree library and the world -/

/-- The inserter generators of `mmdbwriter/inserter`; `unset` is the nil zero value. -/
inductive InserterFunc
  | unset
  | ReplaceWith
  | TopLevelMergeWith
  | DeepMergeWith
deriving DecidableEq, Repr

/-- The fields of `mmdbwriter.Options` the driver sets; the defaults are Go's zero values. -/
structure Options where
  DatabaseType : String := ""
  Languages : List String := []
  IPVersion : Nat := 0
  RecordSize : Nat := 0
  Inserter : InserterFunc := InserterFunc.unset
  DisableIPv4Aliasing : Bool := false
  IncludeReservedNetworks : Bool := false
deriving DecidableEq, Repr

/-- The fields of `maxminddb.Metadata` the driver reads. -/
structure Metadata where
  DatabaseType : String
  Languages : List String
deriving DecidableEq, Repr

/-- The files of the operating system: the content stored at each path, if any. -/
abbrev Files := String → Option Bytes

/-- The content of `path` replaced by `content`. -/
def Files.put (files : Files) (path : String) (content : Bytes) : Files :=
  fun p => if p = path then some content else files p

/-- A call the driver makes on a collaborator, with whether it succeeded. -/
inductive Call
  | ReaderOpen (path : String)
  | New (opts : Options)
  | Load (path : String) (opts : Options)
  | Insert (network : IPNet) (value : String) (ok : Bool)
  | Create (path : String) (ok : Bool)
  | WriteTo (ok : Bool)
deriving DecidableEq, Repr

/-- The state outside the driver: the files and the log of calls made so far. -/
structure World where
  files : Files
  calls : List Call

/-- The world after one more call. -/
def World.log (w : World) (c : Call) : World := { w with calls := w.calls ++ [c] }

/-- The collaborators of the driver over a tree type `T`.
`caseTable` is the part of `unicode.ToLower` above ASCII; `range line m` is the order in which the `range` statement at source line `line`
enumerates the map `m`; `Create` answers an error when `os.Create` fails;
`WriteTo` answers the bytes it wrote and its error, if any. -/
structure Ext (T : Type) where
  caseTable : Char → Char
  unmarshal : Bytes → Except String (List GeoIP)
  range : Nat → GoMap (List IPNet) → GoMap (List IPNet)
  ReaderOpen : Files → String → Except String Metadata
  New : Options → Except String T
  Load : Files → String → Options → Except String T
  Insert : T → IPNet → String → Except String T
  WriteTo : T → Bytes × Option String
  Create : Files → String → Option String

/-- Every enumeration of a map visits each entry once: it is a permutation of the entries. -/
def Ext.RangeValid {T : Type} (ext : Ext T) : Prop :=
  ∀ (line : Nat) (m : GoMap (List IPNet)), (ext.range line m).Perm m

/-- What a step of the driver leaves: the Go `error` (none is nil), the tree, the world. -/
structure Result (T : Type) where
  err : Option String
  writer : T
  world : World

/-! ## newWriter (main.go 90-100) and open (102-118) -/

/-- The options literal of `newWriter`. -/
def newWriterOptions (codes : List String) : Options :=
  { DatabaseType := "sing-geoip"
    Languages := codes
    IPVersion := 6
    RecordSize := 24
    Inserter := InserterFunc.ReplaceWith
    DisableIPv4Aliasing := true
    IncludeReservedNetworks := true }

/-- Function `newWriter`. -/
def newWriter {T : Type} (ext : Ext T) (w : World) (codes : List String) :
    Except String T × World :=
  (ext.New (newWriterOptions codes), w.log (Call.New (newWriterOptions codes)))

/-- The options literal `open` passes to `mmdbwriter.Load` (lines 112-117). -/
def openOptions (languages codes : List String) : Options :=
  { Languages := languages ++ Filter codes (fun it => !Contains languages it)
    Inserter := InserterFunc.ReplaceWith }

/-- Function `open`. -/
def open' {T : Type} (ext : Ext T) (w : World) (path : String) (codes : List String) :
    Except String T × World :=
  match ext.ReaderOpen w.files path with
  | .error err => (.error err, w.log (Call.ReaderOpen path))
  | .ok metadata =>
    if metadata.DatabaseType ≠ "sing-geoip" then
      (.error "invalid sing-geoip database", w.log (Call.ReaderOpen path))
    else
      let opts := openOptions metadata.Languages codes
      (ext.Load w.files path opts, (w.log (Call.ReaderOpen path)).log (Call.Load path opts))

/-! ## write (main.go 120-150) -/

/-- The loop of lines 123-125 (and 166-168): the keys appended in enumeration order. -/
def appendKeys : GoMap (List IPNet) → List String → List String
  | [], codes => codes
  | (code, _) :: rest, codes => appendKeys rest (codes ++ [code])

/-- The loop of lines 129-131: `codeMap[code] = true` for every code. -/
def fillCodeMap : List String → GoMap Bool → GoMap Bool
  | [], codeMap => codeMap
  | code :: rest, codeMap => fillCodeMap rest (codeMap.set code true)

/-- The loop of lines 136-141: insert every item under `code`, stop at the first error. -/
def insertItems {T : Type} (ext : Ext T) (code : String) : List IPNet → T → World → Result T
  | [], writer, w => ⟨none, writer, w⟩
  | item :: rest, writer, w =>
    match ext.Insert writer item code with
    | .error err => ⟨some err, writer, w.log (Call.Insert item code false)⟩
    | .ok writer' => insertItems ext code rest writer' (w.log (Call.Insert item code true))

/-- The loop of lines 132-142: skip the codes outside `codeMap`, insert the items of the others. -/
def insertEntries {T : Type} (ext : Ext T) (codeMap : GoMap Bool) :
    GoMap (List IPNet) → T → World → Result T
  | [], writer, w => ⟨none, writer, w⟩
  | (code, data) :: rest, writer, w =>
    if !(codeMap.get? code).getD false then insertEntries ext codeMap rest writer w
    else
      match insertItems ext code data writer w with
      | ⟨some err, writer', w'⟩ => ⟨some err, writer', w'⟩
      | ⟨none, writer', w'⟩ => insertEntries ext codeMap rest writer' w'

/-- The code map `write` builds from its `codes` argument (lines 121-131). -/
def writeCodeMap {T : Type} (ext : Ext T) (dataMap : GoMap (List IPNet)) (codes : List String) :
    GoMap Bool :=
  let codes := if codes.length = 0 then appendKeys (ext.range 123 dataMap) [] else codes
  let codes := sortStrings codes
  fillCodeMap codes []

/-- Function `write`. -/
def write {T : Type} (ext : Ext T) (w : World) (writer : T) (dataMap : GoMap (List IPNet))
    (output : String) (codes : List String) : Result T :=
  let codeMap := writeCodeMap ext dataMap codes
  match insertEntries ext codeMap (ext.range 132 dataMap) writer w with
  | ⟨some err, writer', w'⟩ => ⟨some err, writer', w'⟩
  | ⟨none, writer', w'⟩ =>
    match ext.Create w'.files output with
    | some err => ⟨some err, writer', w'.log (Call.Create output false)⟩
    | none =>
      let created : World := { files := w'.files.put output [], calls := w'.calls ++ [Call.Create output true] }
      let written := ext.WriteTo writer'
      ⟨written.2, writer',
        { files := created.files.put output written.1
          calls := created.calls ++ [Call.WriteTo written.2.isNone] }⟩

/-! ## local (main.go 152-175) -/

/-- Function `local`. -/
def local' {T : Type} (ext : Ext T) (w : World) (input output : String) (codes : List String) :
    Option String × World :=
  match w.files input with
  | none => (some ("open " ++ input ++ ": no such file or directory"), w)
  | some binary =>
    match parse ext.caseTable ext.unmarshal binary with
    | .error err => (some err, w)
    | .ok countryMap =>
      let opened :=
        if (w.files output).isSome then open' ext w output codes
        else newWriter ext w (appendKeys (ext.range 166 countryMap) [])
      match opened with
      | (.error err, w') => (some err, w')
      | (.ok writer, w') =>
        let r := write ext w' writer countryMap output codes
        (r.err, r.world)

/-! ## The radix trie of the specification (sections 3, 4.1 and 4.2) -/

/-- Modelled from the spec: the trie node of section 3, which stands for the tree of the
`mmdbwriter` library (not among this repository's sources): empty, a labelled leaf, or a fork. -/
inductive TrieNode
  | Empty
  | Leaf (value : String)
  | Fork (left right : TrieNode)
deriving DecidableEq, Repr

/-- Modelled from the spec: `insert` of section 4.2 (the library's replace inserter) along the
bits of a prefix. An empty node on the way becomes a fork of empties, a leaf on the way is pushed
down to both children, and the node at the target depth is replaced by the new leaf. -/
def TrieNode.insert : TrieNode → List Bool → String → TrieNode
  | _, [], value => TrieNode.Leaf value
  | TrieNode.Empty, bit :: bits, value =>
    if bit then TrieNode.Fork TrieNode.Empty (TrieNode.insert TrieNode.Empty bits value)
    else TrieNode.Fork (TrieNode.insert TrieNode.Empty bits value) TrieNode.Empty
  | TrieNode.Leaf v, bit :: bits, value =>
    if bit then TrieNode.Fork (TrieNode.Leaf v) (TrieNode.insert (TrieNode.Leaf v) bits value)
    else TrieNode.Fork (TrieNode.insert (TrieNode.Leaf v) bits value) (TrieNode.Leaf v)
  | TrieNode.Fork left right, bit :: bits, value =>
    if bit then TrieNode.Fork left (TrieNode.insert right bits value)
    else TrieNode.Fork (TrieNode.insert left bits value) right

/-- Modelled from the spec: the label the trie assigns to an address (section 3: a leaf covers
every address below it), or none. -/
def TrieNode.lookup : TrieNode → List Bool → Option String
  | TrieNode.Empty, _ => none
  | TrieNode.Leaf value, _ => some value
  | TrieNode.Fork _ _, [] => none
  | TrieNode.Fork left right, bit :: bits =>
    if bit then TrieNode.lookup right bits else TrieNode.lookup left bits

/-- The eight bits of a byte, most significant first. -/
def byteBits (b : Nat) : List Bool :=
  [b / 128 % 2 == 1, b / 64 % 2 == 1, b / 32 % 2 == 1, b / 16 % 2 == 1,
   b / 8 % 2 == 1, b / 4 % 2 == 1, b / 2 % 2 == 1, b % 2 == 1]

/-- The bits of a byte slice, most significant first. -/
def bitsOf : Bytes → List Bool
  | [] => []
  | b :: rest => byteBits b ++ bitsOf rest

/-- The number of leading one-bits of a mask. -/
def maskOnes (mask : Bytes) : Nat := ((bitsOf mask).takeWhile id).length

/-- Modelled from the spec: `normalize` of section 4.1. The result is the bits of the prefix in
the 128-bit address space; a 4-byte address is embedded after 96 zero bits. -/
def normalize (rawAddressBytes : Bytes) (prefixLen : Nat) : Except String (List Bool) :=
  if rawAddressBytes.length = 4 then
    if prefixLen ≤ 32 then
      .ok ((List.replicate 96 false ++ bitsOf rawAddressBytes).take (96 + prefixLen))
    else .error "InvalidPrefix"
  else if rawAddressBytes.length = 16 then
    if prefixLen ≤ 128 then .ok ((bitsOf rawAddressBytes).take prefixLen)
    else .error "InvalidPrefix"
  else .error "InvalidPrefix"

/-- Modelled from the spec: the address of a lookup in the 128-bit address space (section 4.1). -/
def addressBits (rawAddressBytes : Bytes) : List Bool :=
  if rawAddressBytes.length = 4 then List.replicate 96 false ++ bitsOf rawAddressBytes
  else bitsOf rawAddressBytes

/-- Modelled from the spec: the library's `Insert` of a network and a label, as `normalize`
followed by `insert`; a mask that does not fit the address is an invalid prefix. -/
def trieInsert (root : TrieNode) (network : IPNet) (value : String) : Except String TrieNode :=
  if network.Mask.length ≠ network.IP.length then .error "InvalidPrefix"
  else
    match normalize network.IP (maskOnes network.Mask) with
    | .error err => .error err
    | .ok bits => .ok (root.insert bits value)

/-- The Latin-1 rows of the case tables of `unicode`: the capital letters U+00C0 to U+00DE
other than the multiplication sign U+00D7 are shifted by 32, every other character is kept. It
stands for the tables on the concrete inputs below, which stay within Latin-1. -/
def latin1Table (r : Char) : Char :=
  if 192 ≤ r.toNat ∧ r.toNat ≤ 222 ∧ r.toNat ≠ 215 then Char.ofNat (r.toNat + 32) else r

/-- The collaborators over the specification's trie, for running the driver on concrete
inputs: the case table is `latin1Table`, `entries` is what the input decodes to, `existing` what the reader and the loader find in
an existing database, `createErr` the answer of `os.Create`, `written` that of `WriteTo`. -/
def trieExt (order : Nat → GoMap (List IPNet) → GoMap (List IPNet)) (entries : List GeoIP)
    (existing : Except String (Metadata × TrieNode)) (createErr : Option String)
    (written : Bytes × Option String) : Ext TrieNode where
  caseTable := latin1Table
  unmarshal := fun _ => .ok entries
  range := order
  ReaderOpen := fun _ _ => existing.map Prod.fst
  New := fun _ => .ok TrieNode.Empty
  Load := fun _ _ _ => existing.map Prod.snd
  Insert := trieInsert
  WriteTo := fun _ => written
  Create := fun _ _ => createErr

/-- The pairs of the `Insert` calls of a log, in call order. -/
def insertCalls : List Call → List (IPNet × String)
  | [] => []
  | Call.Insert network value _ :: rest => (network, value) :: insertCalls rest
  | _ :: rest => insertCalls rest

/-- The files of a machine that holds `content` at `path` and nothing else. -/
def oneFile (path : String) (content : Bytes) : Files :=
  fun p => if p = path then some content else none

/-! ## Specification-side definitions -/

/-- The lower-case form of one character: the small letter of an ASCII capital letter, what
the case table gives for a character beyond ASCII, and the character itself otherwise. -/
def lowerCaseRune (table : Char → Char) (c : Char) : Char :=
  if 65 ≤ c.toNat ∧ c.toNat ≤ 90 then Char.ofNat (c.toNat + 32)
  else if 127 < c.toNat then table c
  else c

/-- The lower-cased label: the lower-case form of each of its characters, in order. -/
def lowerCaseOf (table : Char → Char) (s : String) : String :=
  ⟨s.data.map (lowerCaseRune table)⟩

/-- A label is lower-case when none of its characters is an ASCII capital letter and none is
changed by the case table. -/
def IsLowerCase (table : Char → Char) (k : String) : Prop :=
  ∀ c ∈ k.data, ¬ (65 ≤ c.toNat ∧ c.toNat ≤ 90) ∧ (127 < c.toNat → table c = c)

/-- The case table is stable when a character it gives is never an ASCII capital letter and,
beyond ASCII, is given back unchanged: lower-casing twice is lower-casing once. -/
def CaseTableStable (table : Char → Char) : Prop :=
  ∀ c, 127 < c.toNat →
    ¬ (65 ≤ (table c).toNat ∧ (table c).toNat ≤ 90) ∧
      (127 < (table c).toNat → table (table c) = table c)

/-- The nets of all entries whose country code lower-cases to `k`, concatenated in input order. -/
def cidrsOf (table : Char → Char) (entries : List GeoIP) (k : String) : List IPNet :=
  (entries.filter (fun e => lowerCaseOf table e.CountryCode = k)).flatMap
    (fun e => e.Cidr.map cidrToIPNet)

/-- The pairs `write` is to insert: the pairs of every entry of the data map whose label is in
the allow-list, and of every entry when the allow-list is empty. -/
def selectedPairs (dataMap : GoMap (List IPNet)) (codes : List String) : List (IPNet × String) :=
  (dataMap.filter (fun e => decide (codes = [] ∨ e.1 ∈ codes))).flatMap
    (fun e => e.2.map (fun item => (item, e.1)))

/-- The calls the insert loop makes when every insert succeeds. -/
def okCalls (codeMap : GoMap Bool) (entries : GoMap (List IPNet)) : List Call :=
  (entries.filter (fun e => (codeMap.get? e.1).getD false)).flatMap
    (fun e => e.2.map (fun item => Call.Insert item e.1 true))

/-! ## Concrete inputs -/

/-- A data map with overlapping prefixes under two labels: 10.0.0.0/8 under "a" and
10.1.0.0/16 under "b". -/
def overlapMap : GoMap (List IPNet) :=
  [("a", [{ IP := [10, 0, 0, 0], Mask := [255, 0, 0, 0] }]),
   ("b", [{ IP := [10, 1, 0, 0], Mask := [255, 255, 0, 0] }])]

/-- The enumeration that visits the entries of a map in stored order. -/
def storedOrder : Nat → GoMap (List IPNet) → GoMap (List IPNet) := fun _ m => m

/-- The enumeration that visits the entries of a map in reverse stored order. -/
def reverseOrder : Nat → GoMap (List IPNet) → GoMap (List IPNet) := fun _ m => m.reverse

/-- The world with no file and an empty call log. -/
def emptyWorld : World := { files := fun _ => none, calls := [] }

/-! ## Maps -/

theorem get?_set {V : Type} (m : GoMap V) (k k' : String) (v : V) :
    (m.set k v).get? k' = if k = k' then some v else m.get? k' := by
  induction m with
  | nil => simp [GoMap.set, GoMap.get?]
  | cons e rest ih =>
    obtain ⟨a, b⟩ := e
    by_cases hak : a = k
    · by_cases hk : k = k'
      · simp [GoMap.set, GoMap.get?, hak, hk]
      · simp [GoMap.set, GoMap.get?, hak, hk]
    · by_cases hk : k = k'
      · subst hk
        simp [GoMap.set, GoMap.get?, hak, ih]
      · simp only [GoMap.set, GoMap.get?, hak, if_false, ih, hk]

theorem mem_keys_iff {V : Type} (m : GoMap V) (k : String) :
    k ∈ m.keys ↔ ∃ v, m.get? k = some v := by
  induction m with
  | nil => simp [GoMap.keys, GoMap.get?]
  | cons e rest ih =>
    obtain ⟨a, b⟩ := e
    by_cases hak : a = k
    · simp [GoMap.keys, GoMap.get?, hak]
    · have hka : ¬ k = a := fun h => hak h.symm
      simp only [GoMap.keys, List.map_cons, List.mem_cons, hka, false_or, GoMap.get?, hak,
        if_false]
      exact ih

theorem keys_set {V : Type} (m : GoMap V) (k : String) (v : V) :
    (m.set k v).keys = if k ∈ m.keys then m.keys else m.keys ++ [k] := by
  induction m with
  | nil => simp [GoMap.set, GoMap.keys]
  | cons e rest ih =>
    obtain ⟨a, b⟩ := e
    by_cases hak : a = k
    · simp [GoMap.set, GoMap.keys, hak]
    · have hka : ¬ k = a := fun h => hak h.symm
      simp only [GoMap.keys] at ih
      simp only [GoMap.set, hak, if_false, GoMap.keys, List.map_cons, List.mem_cons, hka,
        false_or, ih]
      split <;> simp

theorem nodup_keys_set {V : Type} (m : GoMap V) (k : String) (v : V) (h : m.keys.Nodup) :
    (m.set k v).keys.Nodup := by
  rw [keys_set]
  split
  · exact h
  · rename_i hk
    exact List.Nodup.append h (List.nodup_singleton k) (by simpa using hk)

theorem mem_of_get? {V : Type} (m : GoMap V) (k : String) (v : V) (h : m.get? k = some v) :
    (k, v) ∈ m := by
  induction m with
  | nil => simp [GoMap.get?] at h
  | cons e rest ih =>
    obtain ⟨a, b⟩ := e
    by_cases hak : a = k
    · simp [GoMap.get?, hak] at h
      simp [hak, h]
    · simp only [GoMap.get?, hak, if_false] at h
      exact List.mem_cons_of_mem _ (ih h)

theorem get?_of_mem {V : Type} (m : GoMap V) (k : String) (v : V) (hn : m.keys.Nodup)
    (h : (k, v) ∈ m) : m.get? k = some v := by
  induction m with
  | nil => simp at h
  | cons e rest ih =>
    obtain ⟨a, b⟩ := e
    simp only [GoMap.keys, List.map_cons, List.nodup_cons] at hn
    rcases List.mem_cons.mp h with heq | hmem
    · simp only [Prod.mk.injEq] at heq
      simp [GoMap.get?, heq.1, heq.2]
    · have hak : ¬ a = k := by
        intro hak
        apply hn.1
        rw [hak]
        exact List.mem_map.mpr ⟨(k, v), hmem, rfl⟩
      simp only [GoMap.get?, hak, if_false]
      exact ih hn.2 hmem

/-! ## parse -/

theorem parseCidrs_get? (code : String) (cidrs : List CIDR) (m : GoMap (List IPNet))
    (k : String) :
    (parseCidrs code cidrs m).get? k =
      if k = code ∧ cidrs ≠ [] then some ((m.get? code).getD [] ++ cidrs.map cidrToIPNet)
      else m.get? k := by
  induction cidrs generalizing m with
  | nil => simp [parseCidrs]
  | cons c rest ih =>
    simp only [parseCidrs, ih, get?_set]
    by_cases hk : k = code
    · subst hk
      by_cases hr : rest = []
      · simp [hr]
      · simp [hr]
    · have hck : ¬ code = k := fun h => hk h.symm
      simp [hk, hck]

theorem parseCidrs_nodup (code : String) (cidrs : List CIDR) (m : GoMap (List IPNet))
    (h : m.keys.Nodup) : (parseCidrs code cidrs m).keys.Nodup := by
  induction cidrs generalizing m with
  | nil => simpa [parseCidrs] using h
  | cons c rest ih =>
    simp only [parseCidrs]
    exact ih _ (nodup_keys_set _ _ _ h)

theorem parseEntries_nodup (table : Char → Char) (entries : List GeoIP)
    (m : GoMap (List IPNet)) (h : m.keys.Nodup) : (parseEntries table entries m).keys.Nodup := by
  induction entries generalizing m with
  | nil => simpa [parseEntries] using h
  | cons e rest ih =>
    simp only [parseEntries]
    exact ih _ (parseCidrs_nodup _ _ _ h)

/-! ## strings.ToLower -/

theorem toNat_shift (c : Char) (h : 65 ≤ c.toNat ∧ c.toNat ≤ 90) :
    (Char.ofNat (c.toNat + 32)).toNat = c.toNat + 32 := by
  obtain ⟨h1, h2⟩ := h
  generalize c.toNat = n at h1 h2
  interval_cases n <;> decide

theorem unicodeToLower_eq (table : Char → Char) (c : Char) :
    unicodeToLower table c = lowerCaseRune table c := by
  unfold unicodeToLower lowerCaseRune
  by_cases hu : 65 ≤ c.toNat ∧ c.toNat ≤ 90
  · have h127 : c.toNat ≤ 127 := by omega
    simp [hu, h127]
  · by_cases h127 : c.toNat ≤ 127
    · have hn : ¬ 127 < c.toNat := by omega
      simp [hu, h127, hn]
    · have hn : 127 < c.toNat := by omega
      simp [hu, h127, hn]

/-- The source's `strings.ToLower` computes the lower-cased label of the specification. -/
theorem ToLower_eq (table : Char → Char) (s : String) : ToLower table s = lowerCaseOf table s := by
  unfold ToLower lowerCaseOf
  simp only
  by_cases hascii : (s.data.all fun c => decide (c.toNat < 128)) = true
  · rw [if_pos hascii]
    have hall : ∀ c ∈ s.data, c.toNat < 128 := by simpa using hascii
    by_cases hup : (s.data.any fun c => decide (65 ≤ c.toNat ∧ c.toNat ≤ 90)) = true
    · simp only [hup, Bool.not_true, Bool.false_eq_true, if_false]
      congr 1
      apply List.map_congr_left
      intro c hc
      have := hall c hc
      have hn : ¬ 127 < c.toNat := by omega
      simp [lowerCaseRune, hn]
    · have hup' : (s.data.any fun c => decide (65 ≤ c.toNat ∧ c.toNat ≤ 90)) = false := by
        simpa using hup
      simp only [hup', Bool.not_false, if_true]
      have hnone : ∀ c ∈ s.data, ¬ (65 ≤ c.toNat ∧ c.toNat ≤ 90) := by
        intro c hc hu
        have : (s.data.any fun c => decide (65 ≤ c.toNat ∧ c.toNat ≤ 90)) = true :=
          List.any_eq_true.mpr ⟨c, hc, by simpa using hu⟩
        exact hup this
      have hmap : s.data.map (lowerCaseRune table) = s.data := by
        conv_rhs => rw [← List.map_id s.data]
        apply List.map_congr_left
        intro c hc
        have := hall c hc
        have hn : ¬ 127 < c.toNat := by omega
        simp [lowerCaseRune, hnone c hc, hn]
      rw [hmap]
  · rw [if_neg hascii]
    congr 1
    apply List.map_congr_left
    intro c _
    exact unicodeToLower_eq table c

theorem lowerCaseRune_lower (table : Char → Char) (c : Char)
    (h : 127 < c.toNat →
      ¬ (65 ≤ (table c).toNat ∧ (table c).toNat ≤ 90) ∧
        (127 < (table c).toNat → table (table c) = table c)) :
    ¬ (65 ≤ (lowerCaseRune table c).toNat ∧ (lowerCaseRune table c).toNat ≤ 90) ∧
      (127 < (lowerCaseRune table c).toNat →
        table (lowerCaseRune table c) = lowerCaseRune table c) := by
  unfold lowerCaseRune
  by_cases hu : 65 ≤ c.toNat ∧ c.toNat ≤ 90
  · rw [if_pos hu, toNat_shift c hu]
    constructor
    · omega
    · intro h'
      omega
  · rw [if_neg hu]
    by_cases h127 : 127 < c.toNat
    · rw [if_pos h127]
      exact h h127
    · rw [if_neg h127]
      exact ⟨hu, fun h' => absurd h' h127⟩

theorem lowerCaseOf_isLowerCase (table : Char → Char) (s : String)
    (h : ∀ c ∈ s.data, 127 < c.toNat →
      ¬ (65 ≤ (table c).toNat ∧ (table c).toNat ≤ 90) ∧
        (127 < (table c).toNat → table (table c) = table c)) :
    IsLowerCase table (lowerCaseOf table s) := by
  intro c hc
  simp only [lowerCaseOf, List.mem_map] at hc
  obtain ⟨c', hc', rfl⟩ := hc
  exact lowerCaseRune_lower table c' (h c' hc')

theorem lowerCaseOf_fixed (table : Char → Char) (k : String) (h : IsLowerCase table k) :
    lowerCaseOf table k = k := by
  have hmap : k.data.map (lowerCaseRune table) = k.data := by
    conv_rhs => rw [← List.map_id k.data]
    apply List.map_congr_left
    intro c hc
    obtain ⟨hu, ht⟩ := h c hc
    unfold lowerCaseRune
    rw [if_neg hu]
    by_cases h127 : 127 < c.toNat
    · rw [if_pos h127]
      exact ht h127
    · rw [if_neg h127]
      rfl
  unfold lowerCaseOf
  rw [hmap]

/-! ## parse: the map -/

theorem cidrsOf_cons (table : Char → Char) (e : GeoIP) (rest : List GeoIP) (k : String) :
    cidrsOf table (e :: rest) k =
      (if lowerCaseOf table e.CountryCode = k then e.Cidr.map cidrToIPNet else []) ++
        cidrsOf table rest k := by
  unfold cidrsOf
  by_cases h : lowerCaseOf table e.CountryCode = k
  · simp [List.filter_cons, h]
  · simp [List.filter_cons, h]

theorem parseEntries_get? (table : Char → Char) (entries : List GeoIP)
    (m : GoMap (List IPNet)) (k : String) :
    (parseEntries table entries m).get? k =
      if cidrsOf table entries k = [] then m.get? k
      else some ((m.get? k).getD [] ++ cidrsOf table entries k) := by
  induction entries generalizing m with
  | nil => simp [parseEntries, cidrsOf]
  | cons e rest ih =>
    simp only [parseEntries, ih, parseCidrs_get?, cidrsOf_cons, ToLower_eq]
    by_cases hk : k = lowerCaseOf table e.CountryCode
    · subst hk
      by_cases hc : e.Cidr = []
      · simp [hc]
      · by_cases hr : cidrsOf table rest (lowerCaseOf table e.CountryCode) = []
        · simp [hc, hr]
        · simp [hc, hr]
    · have hk2 : ¬ lowerCaseOf table e.CountryCode = k := fun h => hk h.symm
      simp [hk, hk2]

theorem cidrsOf_ne_nil (table : Char → Char) (entries : List GeoIP) (k : String) :
    cidrsOf table entries k ≠ [] ↔
      ∃ e ∈ entries, e.Cidr ≠ [] ∧ lowerCaseOf table e.CountryCode = k := by
  induction entries with
  | nil => simp [cidrsOf]
  | cons e rest ih =>
    rw [cidrsOf_cons]
    by_cases hk : lowerCaseOf table e.CountryCode = k
    · by_cases hc : e.Cidr = []
      · simp [hk, hc, ih]
      · simp [hk, hc]
    · simp [hk, ih]

theorem parseEntries_keys (table : Char → Char) (entries : List GeoIP) (k : String) :
    k ∈ (parseEntries table entries []).keys ↔
      ∃ e ∈ entries, e.Cidr ≠ [] ∧ lowerCaseOf table e.CountryCode = k := by
  rw [mem_keys_iff, parseEntries_get?, ← cidrsOf_ne_nil]
  by_cases h : cidrsOf table entries k = []
  · simp [h, GoMap.get?]
  · simp [h]

theorem parseEntries_value (table : Char → Char) (entries : List GeoIP) (k : String)
    (h : k ∈ (parseEntries table entries []).keys) :
    (parseEntries table entries []).get? k = some (cidrsOf table entries k) := by
  have hne : cidrsOf table entries k ≠ [] :=
    (cidrsOf_ne_nil table entries k).mpr ((parseEntries_keys table entries k).mp h)
  rw [parseEntries_get?]
  simp [hne, GoMap.get?]

theorem mem_cidrsOf (table : Char → Char) (entries : List GeoIP) (k : String) (n : IPNet) :
    n ∈ cidrsOf table entries k ↔
      ∃ e ∈ entries, lowerCaseOf table e.CountryCode = k ∧ ∃ cidr ∈ e.Cidr, cidrToIPNet cidr = n := by
  unfold cidrsOf
  simp only [List.mem_flatMap, List.mem_filter, List.mem_map, decide_eq_true_eq]
  constructor
  · rintro ⟨e, ⟨he, hk⟩, cidr, hc, hn⟩
    exact ⟨e, he, hk, cidr, hc, hn⟩
  · rintro ⟨e, he, hk, cidr, hc, hn⟩
    exact ⟨e, ⟨he, hk⟩, cidr, hc, hn⟩

/-- The pairs of the map `parse` builds are the nets of the input CIDRs, each under the
lower-cased country code of its entry. -/
theorem mem_parseEntries_pairs (table : Char → Char) (entries : List GeoIP) (l : String)
    (n : IPNet) :
    (∃ data, (l, data) ∈ parseEntries table entries [] ∧ n ∈ data) ↔
      ∃ e ∈ entries, lowerCaseOf table e.CountryCode = l ∧ ∃ cidr ∈ e.Cidr, cidrToIPNet cidr = n := by
  have hnd := parseEntries_nodup table entries [] (by simp [GoMap.keys])
  rw [← mem_cidrsOf]
  constructor
  · rintro ⟨data, hd, hn⟩
    have hk : l ∈ (parseEntries table entries []).keys := List.mem_map.mpr ⟨(l, data), hd, rfl⟩
    have hget := get?_of_mem _ l data hnd hd
    rw [parseEntries_value table entries l hk] at hget
    rw [Option.some.inj hget]
    exact hn
  · intro hn
    have hne : cidrsOf table entries l ≠ [] := List.ne_nil_of_mem hn
    have hk : l ∈ (parseEntries table entries []).keys :=
      (parseEntries_keys table entries l).mpr ((cidrsOf_ne_nil table entries l).mp hne)
    exact ⟨_, mem_of_get? _ l _ (parseEntries_value table entries l hk), hn⟩

/-! ## write: the code map -/

theorem appendKeys_eq (m : GoMap (List IPNet)) (codes : List String) :
    appendKeys m codes = codes ++ m.keys := by
  induction m generalizing codes with
  | nil => simp [appendKeys, GoMap.keys]
  | cons e rest ih =>
    obtain ⟨a, b⟩ := e
    simp only [GoMap.keys] at ih
    simp [appendKeys, ih, GoMap.keys]

theorem mem_sortedInsert (a x : String) (l : List String) :
    x ∈ sortedInsert a l ↔ x = a ∨ x ∈ l := by
  induction l with
  | nil => simp [sortedInsert]
  | cons b rest ih =>
    simp only [sortedInsert]
    split
    · simp only [List.mem_cons, ih]
      tauto
    · simp

theorem mem_sortStrings (x : String) (l : List String) : x ∈ sortStrings l ↔ x ∈ l := by
  induction l with
  | nil => simp [sortStrings]
  | cons a rest ih => simp [sortStrings, mem_sortedInsert, ih]

theorem fillCodeMap_get? (codes : List String) (m : GoMap Bool) (k : String) :
    ((fillCodeMap codes m).get? k).getD false = (decide (k ∈ codes) || (m.get? k).getD false) := by
  induction codes generalizing m with
  | nil => simp [fillCodeMap]
  | cons c rest ih =>
    simp only [fillCodeMap, ih, get?_set]
    by_cases hck : c = k
    · simp [hck]
    · have hkc : ¬ k = c := fun h => hck h.symm
      simp [hck, hkc]

theorem writeCodeMap_get? {T : Type} (ext : Ext T) (hr : ext.RangeValid)
    (dataMap : GoMap (List IPNet)) (codes : List String) (k : String) :
    ((writeCodeMap ext dataMap codes).get? k).getD false =
      decide ((codes = [] ∧ k ∈ dataMap.keys) ∨ k ∈ codes) := by
  unfold writeCodeMap
  simp only [fillCodeMap_get?, GoMap.get?, Option.getD_none, Bool.or_false]
  by_cases hc : codes = []
  · subst hc
    have hp : (ext.range 123 dataMap).keys.Perm dataMap.keys := (hr 123 dataMap).map Prod.fst
    simp [mem_sortStrings, appendKeys_eq, hp.mem_iff]
  · have hl : ¬ codes.length = 0 := by simpa using hc
    simp [hl, hc, mem_sortStrings]

/-! ## write: the insert loops -/

theorem insertItems_spec {T : Type} (ext : Ext T) (code : String) (data : List IPNet)
    (writer : T) (w : World) :
    (insertItems ext code data writer w).world.files = w.files ∧
    ∃ evs, (insertItems ext code data writer w).world.calls = w.calls ++ evs ∧
      ((insertItems ext code data writer w).err = none →
        evs = data.map (fun item => Call.Insert item code true)) ∧
      ((insertItems ext code data writer w).err ≠ none →
        ∃ n, Call.Insert n code false ∈ evs) ∧
      (∀ c ∈ evs, ∃ n ok, c = Call.Insert n code ok ∧ n ∈ data) := by
  induction data generalizing writer w with
  | nil => exact ⟨rfl, [], by simp [insertItems]⟩
  | cons item rest ih =>
    simp only [insertItems]
    cases hins : ext.Insert writer item code with
    | error err =>
      refine ⟨rfl, [Call.Insert item code false], by simp [World.log], by simp, ?_, ?_⟩
      · intro _
        exact ⟨item, by simp⟩
      · intro c hc
        exact ⟨item, false, by simpa using hc, by simp⟩
    | ok writer' =>
      obtain ⟨hf, evs, hcalls, hok, hbad, hall⟩ := ih writer' (w.log (Call.Insert item code true))
      refine ⟨by simpa [World.log] using hf, Call.Insert item code true :: evs, ?_, ?_, ?_, ?_⟩
      · simpa [World.log] using hcalls
      · intro h
        simp [hok h]
      · intro h
        obtain ⟨n, hn⟩ := hbad h
        exact ⟨n, List.mem_cons_of_mem _ hn⟩
      · intro c hc
        rcases List.mem_cons.mp hc with h | h
        · exact ⟨item, true, h, by simp⟩
        · obtain ⟨n, ok, hc', hn⟩ := hall c h
          exact ⟨n, ok, hc', List.mem_cons_of_mem _ hn⟩

theorem insertEntries_spec {T : Type} (ext : Ext T) (codeMap : GoMap Bool)
    (entries : GoMap (List IPNet)) (writer : T) (w : World) :
    (insertEntries ext codeMap entries writer w).world.files = w.files ∧
    ∃ evs, (insertEntries ext codeMap entries writer w).world.calls = w.calls ++ evs ∧
      ((insertEntries ext codeMap entries writer w).err = none → evs = okCalls codeMap entries) ∧
      ((insertEntries ext codeMap entries writer w).err ≠ none →
        ∃ n v, Call.Insert n v false ∈ evs) ∧
      (∀ c ∈ evs, ∃ n v ok data, c = Call.Insert n v ok ∧ (v, data) ∈ entries ∧ n ∈ data ∧
        (codeMap.get? v).getD false = true) := by
  induction entries generalizing writer w with
  | nil => exact ⟨rfl, [], by simp [insertEntries, okCalls]⟩
  | cons e rest ih =>
    obtain ⟨code, data⟩ := e
    simp only [insertEntries]
    by_cases hsel : (codeMap.get? code).getD false = true
    · simp only [hsel, Bool.not_true, Bool.false_eq_true, if_false]
      obtain ⟨hf1, evs1, hcalls1, hok1, hbad1, hall1⟩ := insertItems_spec ext code data writer w
      cases hres : insertItems ext code data writer w with
      | mk err1 writer1 w1 =>
        rw [hres] at hf1 hcalls1 hok1 hbad1
        simp only at hf1 hcalls1 hok1 hbad1
        cases err1 with
        | some err =>
          refine ⟨hf1, evs1, hcalls1, by simp, ?_, ?_⟩
          · intro _
            obtain ⟨n, hn⟩ := hbad1 (by simp)
            exact ⟨n, code, hn⟩
          · intro c hc
            obtain ⟨n, ok, hc', hn⟩ := hall1 c hc
            exact ⟨n, code, ok, data, hc', by simp, hn, hsel⟩
        | none =>
          obtain ⟨hf2, evs2, hcalls2, hok2, hbad2, hall2⟩ := ih writer1 w1
          refine ⟨by rw [hf2, hf1], evs1 ++ evs2, ?_, ?_, ?_, ?_⟩
          · rw [hcalls2, hcalls1, List.append_assoc]
          · intro h
            rw [hok2 h, hok1 rfl]
            simp [okCalls, List.filter_cons, hsel]
          · intro h
            obtain ⟨n, v, hn⟩ := hbad2 h
            exact ⟨n, v, List.mem_append_right _ hn⟩
          · intro c hc
            rcases List.mem_append.mp hc with h | h
            · obtain ⟨n, ok, hc', hn⟩ := hall1 c h
              exact ⟨n, code, ok, data, hc', by simp, hn, hsel⟩
            · obtain ⟨n, v, ok, d, hc', hmem, hn, hs⟩ := hall2 c h
              exact ⟨n, v, ok, d, hc', List.mem_cons_of_mem _ hmem, hn, hs⟩
    · have hsel' : (codeMap.get? code).getD false = false := by simpa using hsel
      simp only [hsel', Bool.not_false, if_true]
      obtain ⟨hf2, evs2, hcalls2, hok2, hbad2, hall2⟩ := ih writer w
      refine ⟨hf2, evs2, hcalls2, ?_, hbad2, ?_⟩
      · intro h
        rw [hok2 h]
        simp [okCalls, List.filter_cons, hsel']
      · intro c hc
        obtain ⟨n, v, ok, d, hc', hmem, hn, hs⟩ := hall2 c hc
        exact ⟨n, v, ok, d, hc', List.mem_cons_of_mem _ hmem, hn, hs⟩

/-! ## write: the whole function -/

theorem write_eq {T : Type} (ext : Ext T) (w : World) (writer : T)
    (dataMap : GoMap (List IPNet)) (output : String) (codes : List String) :
    write ext w writer dataMap output codes =
      match (insertEntries ext (writeCodeMap ext dataMap codes) (ext.range 132 dataMap) writer w).err with
      | some _ => insertEntries ext (writeCodeMap ext dataMap codes) (ext.range 132 dataMap) writer w
      | none =>
        match ext.Create
          (insertEntries ext (writeCodeMap ext dataMap codes) (ext.range 132 dataMap) writer w).world.files
          output with
        | some err =>
          ⟨some err,
            (insertEntries ext (writeCodeMap ext dataMap codes) (ext.range 132 dataMap) writer w).writer,
            (insertEntries ext (writeCodeMap ext dataMap codes) (ext.range 132 dataMap) writer w).world.log
              (Call.Create output false)⟩
        | none =>
          ⟨(ext.WriteTo
              (insertEntries ext (writeCodeMap ext dataMap codes) (ext.range 132 dataMap) writer w).writer).2,
            (insertEntries ext (writeCodeMap ext dataMap codes) (ext.range 132 dataMap) writer w).writer,
            { files :=
                ((insertEntries ext (writeCodeMap ext dataMap codes) (ext.range 132 dataMap) writer
                  w).world.files.put output []).put output
                  (ext.WriteTo
                    (insertEntries ext (writeCodeMap ext dataMap codes) (ext.range 132 dataMap) writer
                      w).writer).1
              calls :=
                (insertEntries ext (writeCodeMap ext dataMap codes) (ext.range 132 dataMap) writer
                  w).world.calls ++ [Call.Create output true] ++
                  [Call.WriteTo
                    (ext.WriteTo
                      (insertEntries ext (writeCodeMap ext dataMap codes) (ext.range 132 dataMap)
                        writer w).writer).2.isNone] }⟩ := by
  dsimp only [write]
  cases insertEntries ext (writeCodeMap ext dataMap codes) (ext.range 132 dataMap) writer w with
  | mk err writer' w' =>
    cases err with
    | some e => rfl
    | none => dsimp only

theorem insertCalls_append (a b : List Call) :
    insertCalls (a ++ b) = insertCalls a ++ insertCalls b := by
  induction a with
  | nil => rfl
  | cons c rest ih => cases c <;> simp [insertCalls, ih]

theorem insertCalls_map (code : String) (data : List IPNet) :
    insertCalls (data.map (fun item => Call.Insert item code true)) =
      data.map (fun item => (item, code)) := by
  induction data with
  | nil => rfl
  | cons item rest ih => simp [insertCalls, ih]

theorem insertCalls_flatMap (entries : GoMap (List IPNet)) :
    insertCalls (entries.flatMap (fun e => e.2.map (fun item => Call.Insert item e.1 true))) =
      entries.flatMap (fun e => e.2.map (fun item => (item, e.1))) := by
  induction entries with
  | nil => rfl
  | cons e rest ih => simp [insertCalls_append, insertCalls_map, ih]

theorem mem_insertCalls (n : IPNet) (v : String) (calls : List Call) :
    (n, v) ∈ insertCalls calls ↔ ∃ ok, Call.Insert n v ok ∈ calls := by
  induction calls with
  | nil => simp [insertCalls]
  | cons c rest ih =>
    cases c with
    | Insert network value ok =>
      simp only [insertCalls, List.mem_cons, Prod.mk.injEq, ih, Call.Insert.injEq]
      constructor
      · rintro (⟨h1, h2⟩ | ⟨ok', h⟩)
        · exact ⟨ok, Or.inl ⟨h1, h2, rfl⟩⟩
        · exact ⟨ok', Or.inr h⟩
      · rintro ⟨ok', ⟨h1, h2, _⟩ | h⟩
        · exact Or.inl ⟨h1, h2⟩
        · exact Or.inr ⟨ok', h⟩
    | _ => simp [insertCalls, ih]

/-- Under a valid enumeration the successful calls of the insert loop of `write` are the
selected pairs of the enumerated map. -/
theorem insertCalls_okCalls {T : Type} (ext : Ext T) (hr : ext.RangeValid)
    (dataMap : GoMap (List IPNet)) (codes : List String) :
    insertCalls (okCalls (writeCodeMap ext dataMap codes) (ext.range 132 dataMap)) =
      selectedPairs (ext.range 132 dataMap) codes := by
  unfold okCalls selectedPairs
  rw [insertCalls_flatMap]
  congr 1
  apply List.filter_congr
  intro e he
  rw [writeCodeMap_get? ext hr]
  have hk : e.1 ∈ dataMap.keys :=
    List.mem_map.mpr ⟨e, ((hr 132 dataMap).mem_iff).mp he, rfl⟩
  simp [hk]

theorem selectedPairs_perm (m m' : GoMap (List IPNet)) (codes : List String) (h : m.Perm m') :
    (selectedPairs m codes).Perm (selectedPairs m' codes) :=
  List.Perm.flatMap_right _ (List.Perm.filter _ h)

theorem mem_selectedPairs (m : GoMap (List IPNet)) (codes : List String) (n : IPNet)
    (l : String) :
    (n, l) ∈ selectedPairs m codes ↔
      ∃ data, (l, data) ∈ m ∧ n ∈ data ∧ (codes = [] ∨ l ∈ codes) := by
  unfold selectedPairs
  simp only [List.mem_flatMap, List.mem_filter, List.mem_map, Prod.mk.injEq, decide_eq_true_eq]
  constructor
  · rintro ⟨⟨k, data⟩, ⟨hm, hsel⟩, item, hitem, rfl, rfl⟩
    exact ⟨data, hm, hitem, hsel⟩
  · rintro ⟨data, hm, hn, hsel⟩
    exact ⟨(l, data), ⟨hm, hsel⟩, n, hn, rfl, rfl⟩

/-- The calls of `write` from an empty log are those of the insert loop followed by calls
that are no inserts; when there is no failed insert among them, the inserts are the selected pairs. -/
theorem write_insertCalls {T : Type} (ext : Ext T) (hr : ext.RangeValid) (files : Files)
    (writer : T) (dataMap : GoMap (List IPNet)) (output : String) (codes : List String)
    (hok : ∀ n v, Call.Insert n v false ∉
      (write ext ⟨files, []⟩ writer dataMap output codes).world.calls) :
    insertCalls (write ext ⟨files, []⟩ writer dataMap output codes).world.calls =
      selectedPairs (ext.range 132 dataMap) codes := by
  obtain ⟨_, evs, hcalls, hgood, hbad, _⟩ :=
    insertEntries_spec ext (writeCodeMap ext dataMap codes) (ext.range 132 dataMap) writer
      ⟨files, []⟩
  rw [write_eq] at hok ⊢
  simp only [List.nil_append] at hcalls
  cases herr : (insertEntries ext (writeCodeMap ext dataMap codes) (ext.range 132 dataMap) writer
      ⟨files, []⟩).err with
  | some e =>
    rw [herr] at hok
    simp only at hok
    obtain ⟨n, v, hn⟩ := hbad (by simp [herr])
    exact absurd (hcalls ▸ hn) (hok n v)
  | none =>
    simp only
    have hev := hgood herr
    cases ext.Create (insertEntries ext (writeCodeMap ext dataMap codes) (ext.range 132 dataMap)
        writer ⟨files, []⟩).world.files output with
    | some e =>
      simp only [World.log, insertCalls_append, hcalls, hev, insertCalls_okCalls ext hr]
      simp [insertCalls]
    | none =>
      simp only [insertCalls_append, hcalls, hev, insertCalls_okCalls ext hr]
      simp [insertCalls]

/-! ## open: the language list -/

theorem Contains_eq (l : List String) (x : String) : Contains l x = decide (x ∈ l) := by
  induction l with
  | nil => simp [Contains]
  | cons a rest ih =>
    by_cases h : x = a
    · simp [Contains, h]
    · simp [Contains, h, ih]

theorem Filter_go_eq (block : String → Bool) (arr retArr : List String) :
    Filter.go block arr retArr = retArr ++ arr.filter block := by
  induction arr generalizing retArr with
  | nil => simp [Filter.go]
  | cons a rest ih =>
    by_cases h : block a = true
    · simp [Filter.go, h, ih]
    · simp [Filter.go, h, ih]

theorem Filter_eq (arr : List String) (block : String → Bool) :
    Filter arr block = arr.filter block := by
  simp [Filter, Filter_go_eq]

theorem openOptions_languages (languages codes : List String) :
    (openOptions languages codes).Languages =
      languages ++ codes.filter (fun c => decide (c ∉ languages)) := by
  simp [openOptions, Filter_eq, Contains_eq]

/-! ## net.CIDRMask -/

theorem maskLoop_zero (l : Nat) : bitsOf (maskLoop l 0) = List.replicate (8 * l) false := by
  induction l with
  | zero => rfl
  | succ l ih =>
    have h : 8 * (l + 1) = 8 + 8 * l := by ring
    rw [h, List.replicate_add, ← ih]
    rfl

theorem maskLoop_bits (l n : Nat) (h : n ≤ 8 * l) :
    bitsOf (maskLoop l n) = List.replicate n true ++ List.replicate (8 * l - n) false := by
  induction l generalizing n with
  | zero =>
    have hn : n = 0 := by omega
    subst hn
    rfl
  | succ l ih =>
    by_cases h8 : 8 ≤ n
    · have hrec := ih (n - 8) (by omega)
      have hn : n = 8 + (n - 8) := by omega
      have hl : 8 * (l + 1) - n = 8 * l - (n - 8) := by omega
      simp only [maskLoop, h8, if_true, bitsOf, hrec, hl]
      conv_rhs => rw [hn, List.replicate_add]
      simp only [hn.symm, List.append_assoc]
      rfl
    · have hl : 8 * (l + 1) - n = (8 - n) + 8 * l := by omega
      simp only [maskLoop, h8, if_false, bitsOf, maskLoop_zero, hl, List.replicate_add]
      rw [← List.append_assoc]
      congr 1
      have hn : n < 8 := by omega
      interval_cases n <;> decide

theorem CIDRMask_valid (p len : Nat) (hlen : len = 4 ∨ len = 16) (hp : p ≤ 8 * len) :
    bitsOf (CIDRMask (Int.ofNat p) (8 * Int.ofNat len)) =
      List.replicate p true ++ List.replicate (8 * len - p) false := by
  have hbits : ¬ ((8 : Int) * Int.ofNat len ≠ 8 * 4 ∧ (8 : Int) * Int.ofNat len ≠ 8 * 16) := by
    rcases hlen with h | h <;> subst h <;> decide
  have hones : ¬ (Int.ofNat p < 0 ∨ Int.ofNat p > 8 * Int.ofNat len) := by
    simp only [Int.ofNat_eq_coe]
    omega
  have hl : ((8 : Int) * Int.ofNat len / 8).toNat = len := by
    simp only [Int.ofNat_eq_coe]
    omega
  unfold CIDRMask
  rw [if_neg hbits, if_neg hones, hl]
  exact maskLoop_bits len p hp

theorem CIDRMask_invalid (p len : Nat) (h : ¬ (len = 4 ∨ len = 16) ∨ 8 * len < p) :
    CIDRMask (Int.ofNat p) (8 * Int.ofNat len) = [] := by
  unfold CIDRMask
  by_cases hbits : (8 : Int) * Int.ofNat len ≠ 8 * 4 ∧ (8 : Int) * Int.ofNat len ≠ 8 * 16
  · rw [if_pos hbits]
  · rw [if_neg hbits]
    have hones : Int.ofNat p < 0 ∨ Int.ofNat p > 8 * Int.ofNat len := by
      simp only [Int.ofNat_eq_coe] at hbits ⊢
      omega
    rw [if_pos hones]

theorem mem_write_insertCalls {T : Type} (ext : Ext T) (hr : ext.RangeValid)
    (files : Files) (writer : T) (dataMap : GoMap (List IPNet)) (output : String)
    (codes : List String)
    (hok : ∀ n v, Call.Insert n v false ∉
      (write ext ⟨files, []⟩ writer dataMap output codes).world.calls) (n : IPNet) (l : String) :
    (n, l) ∈ insertCalls (write ext ⟨files, []⟩ writer dataMap output codes).world.calls ↔
      ∃ data, (l, data) ∈ dataMap ∧ n ∈ data ∧ (codes = [] ∨ l ∈ codes) := by
  rw [write_insertCalls ext hr files writer dataMap output codes hok,
    (selectedPairs_perm _ _ codes (hr 132 dataMap)).mem_iff]
  exact mem_selectedPairs dataMap codes n l

theorem storedOrder_valid {T : Type} (ext : Ext T) (h : ext.range = storedOrder) :
    ext.RangeValid := by
  intro line m
  rw [h]
  exact List.Perm.refl m

theorem reverseOrder_valid {T : Type} (ext : Ext T) (h : ext.range = reverseOrder) :
    ext.RangeValid := by
  intro line m
  rw [h]
  exact List.reverse_perm m

theorem not_failed_mem_okCalls (codeMap : GoMap Bool) (entries : GoMap (List IPNet)) (n : IPNet)
    (v : String) : Call.Insert n v false ∉ okCalls codeMap entries := by
  simp [okCalls]

theorem put_same (files : Files) (path : String) (content : Bytes) :
    (files.put path content) path = some content := by
  simp [Files.put]

theorem put_other (files : Files) (path p : String) (content : Bytes) (h : p ≠ path) :
    (files.put path content) p = files p := by
  simp [Files.put, h]

/-- Whatever the outcome, every pair `write` passes to `Insert` is a pair of the data map whose
label the allow-list selects. -/
theorem write_insertCalls_sound {T : Type} (ext : Ext T) (hr : ext.RangeValid) (files : Files)
    (writer : T) (dataMap : GoMap (List IPNet)) (output : String) (codes : List String)
    (n : IPNet) (l : String)
    (h : (n, l) ∈ insertCalls (write ext ⟨files, []⟩ writer dataMap output codes).world.calls) :
    ∃ data, (l, data) ∈ dataMap ∧ n ∈ data ∧ (codes = [] ∨ l ∈ codes) := by
  obtain ⟨_, evs, hcalls, _, _, hall⟩ :=
    insertEntries_spec ext (writeCodeMap ext dataMap codes) (ext.range 132 dataMap) writer
      ⟨files, []⟩
  simp only [List.nil_append] at hcalls
  obtain ⟨ok, hmem⟩ := (mem_insertCalls n l _).mp h
  have hev : Call.Insert n l ok ∈ evs := by
    rw [write_eq] at hmem
    cases herr : (insertEntries ext (writeCodeMap ext dataMap codes) (ext.range 132 dataMap)
        writer ⟨files, []⟩).err with
    | some e =>
      rw [herr] at hmem
      simp only at hmem
      rw [hcalls] at hmem
      exact hmem
    | none =>
      rw [herr] at hmem
      simp only at hmem
      cases hcreate : ext.Create (insertEntries ext (writeCodeMap ext dataMap codes)
          (ext.range 132 dataMap) writer ⟨files, []⟩).world.files output with
      | some e =>
        rw [hcreate] at hmem
        simp only [World.log, hcalls, List.mem_append, List.mem_singleton] at hmem
        rcases hmem with hm | hm
        · exact hm
        · cases hm
      | none =>
        rw [hcreate] at hmem
        simp only [hcalls, List.mem_append, List.mem_singleton] at hmem
        rcases hmem with (hm | hm) | hm
        · exact hm
        · cases hm
        · cases hm
  obtain ⟨n', v, ok', data, hc, hd, hn, hsel⟩ := hall _ hev
  cases hc
  rw [writeCodeMap_get? ext hr] at hsel
  have hsel' : (codes = [] ∧ l ∈ dataMap.keys) ∨ l ∈ codes := by simpa using hsel
  refine ⟨data, ((hr 132 dataMap).mem_iff).mp hd, hn, ?_⟩
  rcases hsel' with ⟨hc, _⟩ | hc
  · exact Or.inl hc
  · exact Or.inr hc

theorem latin1Table_stable : CaseTableStable latin1Table := by
  intro c hc
  by_cases h : 192 ≤ c.toNat ∧ c.toNat ≤ 222 ∧ c.toNat ≠ 215
  · have hval : (Char.ofNat (c.toNat + 32)).toNat = c.toNat + 32 := by
      obtain ⟨h1, h2, _⟩ := h
      generalize c.toNat = n at h1 h2
      interval_cases n <;> decide
    have ht : latin1Table c = Char.ofNat (c.toNat + 32) := by
      unfold latin1Table
      rw [if_pos h]
    have hfix : latin1Table (Char.ofNat (c.toNat + 32)) = Char.ofNat (c.toNat + 32) := by
      unfold latin1Table
      rw [if_neg]
      rw [hval]
      omega
    rw [ht, hval]
    exact ⟨by omega, fun _ => hfix⟩
  · have ht : latin1Table c = c := by
      unfold latin1Table
      rw [if_neg h]
    rw [ht]
    exact ⟨by omega, fun _ => ht⟩

/-! ## The claims -/

/-- C1: when no insert fails, the pairs `write` inserts are, as a collection, the pairs of the
data-map entries whose label is in the allow-list (every entry when the allow-list is empty),
each under the key it is listed under; allow-list entries that are no key insert nothing. -/
theorem write_inserts_selected_pairs {T : Type} (ext : Ext T) (hr : ext.RangeValid)
    (files : Files) (writer : T) (dataMap : GoMap (List IPNet)) (output : String)
    (codes : List String)
    (hok : ∀ n v, Call.Insert n v false ∉
      (write ext ⟨files, []⟩ writer dataMap output codes).world.calls) :
    (insertCalls (write ext ⟨files, []⟩ writer dataMap output codes).world.calls).Perm
        (selectedPairs dataMap codes) ∧
      (∀ n l, (n, l) ∈ insertCalls (write ext ⟨files, []⟩ writer dataMap output codes).world.calls ↔
        ∃ data, (l, data) ∈ dataMap ∧ n ∈ data ∧ (codes = [] ∨ l ∈ codes)) ∧
      (∀ c ∈ codes, c ∉ dataMap.keys →
        ∀ n, (n, c) ∉ insertCalls (write ext ⟨files, []⟩ writer dataMap output codes).world.calls) := by
  have heq := write_insertCalls ext hr files writer dataMap output codes hok
  have hperm := selectedPairs_perm _ _ codes (hr 132 dataMap)
  have hmem := mem_write_insertCalls ext hr files writer dataMap output codes hok
  refine ⟨heq ▸ hperm, hmem, ?_⟩
  intro c _ hkey n hin
  obtain ⟨data, hd, _, _⟩ := (hmem n c).mp hin
  exact hkey (List.mem_map.mpr ⟨(c, data), hd, rfl⟩)

/-- The run of C1 on the overlapping map with the allow-list `["b", "zz"]`, enumerated in
reverse: exactly the pair of "b" is inserted. -/
theorem write_inserts_selected_pairs_witness :
    (insertCalls (write (trieExt reverseOrder [] (.error "no database") none ([], none))
        ⟨fun _ => none, []⟩ TrieNode.Empty overlapMap "geoip.db" ["b", "zz"]).world.calls).Perm
      [({ IP := [10, 1, 0, 0], Mask := [255, 255, 0, 0] }, "b")] :=
  (write_inserts_selected_pairs (trieExt reverseOrder [] (.error "no database") none ([], none))
    (reverseOrder_valid _ rfl) (fun _ => none) TrieNode.Empty overlapMap "geoip.db" ["b", "zz"]
    (by
      have hc : (write (trieExt reverseOrder [] (.error "no database") none ([], none))
          ⟨fun _ => none, []⟩ TrieNode.Empty overlapMap "geoip.db" ["b", "zz"]).world.calls =
          [Call.Insert { IP := [10, 1, 0, 0], Mask := [255, 255, 0, 0] } "b" true,
            Call.Create "geoip.db" true, Call.WriteTo true] := by decide
      intro n v h
      rw [hc] at h
      simp at h)).1

/-- C2 (as the claim states it, refuted): the input label "CN" is stored under "cn" and the
allow-list entry "CN" equals it up to letter case, and yet `local`, run with the allow-list
`["CN", "us"]`, inserts the pair of "us" only. -/
theorem upper_case_allow_list_selects_nothing :
    parseEntries latin1Table
        [{ CountryCode := "CN", Cidr := [{ Ip := [1, 0, 0, 0], Prefix := 8 }] },
          { CountryCode := "US", Cidr := [{ Ip := [2, 0, 0, 0], Prefix := 8 }] }] [] =
        [("cn", [{ IP := [1, 0, 0, 0], Mask := [255, 0, 0, 0] }]),
          ("us", [{ IP := [2, 0, 0, 0], Mask := [255, 0, 0, 0] }])] ∧
      ToLower latin1Table "CN" = ToLower latin1Table "cn" ∧
      (local' (trieExt storedOrder
          [{ CountryCode := "CN", Cidr := [{ Ip := [1, 0, 0, 0], Prefix := 8 }] },
            { CountryCode := "US", Cidr := [{ Ip := [2, 0, 0, 0], Prefix := 8 }] }]
          (.error "no database") none ([], none))
        ⟨oneFile "geoip.dat" [], []⟩ "geoip.dat" "geoip.db" ["CN", "us"]).1 = none ∧
      insertCalls (local' (trieExt storedOrder
          [{ CountryCode := "CN", Cidr := [{ Ip := [1, 0, 0, 0], Prefix := 8 }] },
            { CountryCode := "US", Cidr := [{ Ip := [2, 0, 0, 0], Prefix := 8 }] }]
          (.error "no database") none ([], none))
        ⟨oneFile "geoip.dat" [], []⟩ "geoip.dat" "geoip.db" ["CN", "us"]).2.calls =
        [({ IP := [2, 0, 0, 0], Mask := [255, 0, 0, 0] }, "us")] := by
  decide

/-- C2 (amended): the allow-list is compared with the lower-cased input labels by exact string
equality. For the data map `parse` builds from any decoded list and any allow-list: every pair
`write` inserts is the net of an input CIDR under the lower-case form of its entry's country
code, and the allow-list is empty or holds that lower-case form literally; when no insert
fails, the pair of an input CIDR is inserted if and only if the allow-list is empty or holds
the lower-case form of its label literally; and holding it literally is holding an entry equal
to the label up to letter case when every allow-list entry is its own lower-case form. -/
theorem allow_list_matches_exactly {T : Type} (ext : Ext T) (hr : ext.RangeValid)
    (files : Files) (writer : T) (entries : List GeoIP) (output : String)
    (codes : List String) :
    (∀ n l,
      (n, l) ∈ insertCalls (write ext ⟨files, []⟩ writer
          (parseEntries ext.caseTable entries []) output codes).world.calls →
        (∃ e ∈ entries, lowerCaseOf ext.caseTable e.CountryCode = l ∧
          ∃ cidr ∈ e.Cidr, cidrToIPNet cidr = n) ∧
        (codes = [] ∨ l ∈ codes)) ∧
      ((∀ n v, Call.Insert n v false ∉ (write ext ⟨files, []⟩ writer
          (parseEntries ext.caseTable entries []) output codes).world.calls) →
        ∀ e ∈ entries, ∀ cidr ∈ e.Cidr,
          ((cidrToIPNet cidr, lowerCaseOf ext.caseTable e.CountryCode) ∈
              insertCalls (write ext ⟨files, []⟩ writer
                (parseEntries ext.caseTable entries []) output codes).world.calls ↔
            (codes = [] ∨ lowerCaseOf ext.caseTable e.CountryCode ∈ codes))) ∧
      ((∀ c ∈ codes, lowerCaseOf ext.caseTable c = c) →
        ∀ label : String,
          (lowerCaseOf ext.caseTable label ∈ codes ↔
            ∃ c ∈ codes, lowerCaseOf ext.caseTable c = lowerCaseOf ext.caseTable label)) := by
  refine ⟨?_, ?_, ?_⟩
  · intro n l h
    obtain ⟨data, hd, hn, hsel⟩ :=
      write_insertCalls_sound ext hr files writer _ output codes n l h
    exact ⟨(mem_parseEntries_pairs ext.caseTable entries l n).mp ⟨data, hd, hn⟩, hsel⟩
  · intro hok e he cidr hcidr
    rw [mem_write_insertCalls ext hr files writer _ output codes hok]
    have hpair := (mem_parseEntries_pairs ext.caseTable entries
      (lowerCaseOf ext.caseTable e.CountryCode) (cidrToIPNet cidr)).mpr
      ⟨e, he, rfl, cidr, hcidr, rfl⟩
    constructor
    · rintro ⟨_, _, _, hsel⟩
      exact hsel
    · intro hsel
      obtain ⟨data, hd, hn⟩ := hpair
      exact ⟨data, hd, hn, hsel⟩
  · intro hlow label
    constructor
    · intro h
      exact ⟨_, h, hlow _ h⟩
    · rintro ⟨c, hc, hcl⟩
      rw [hlow c hc] at hcl
      exact hcl ▸ hc

/-- The run of C2 (amended) on the input labels "Us" and "CN" with the allow-list `["us"]`:
the pair of "Us" is inserted under "us". -/
theorem allow_list_matches_exactly_witness :
    (({ IP := [2, 0, 0, 0], Mask := [255, 0, 0, 0] } : IPNet), "us") ∈ insertCalls
      (write (trieExt storedOrder [] (.error "no database") none ([], none)) ⟨fun _ => none, []⟩
        TrieNode.Empty
        (parseEntries latin1Table
          [{ CountryCode := "Us", Cidr := [{ Ip := [2, 0, 0, 0], Prefix := 8 }] },
            { CountryCode := "CN", Cidr := [{ Ip := [1, 0, 0, 0], Prefix := 8 }] }] [])
        "geoip.db" ["us"]).world.calls :=
  ((allow_list_matches_exactly (trieExt storedOrder [] (.error "no database") none ([], none))
    (storedOrder_valid _ rfl) (fun _ => none) TrieNode.Empty
    [{ CountryCode := "Us", Cidr := [{ Ip := [2, 0, 0, 0], Prefix := 8 }] },
      { CountryCode := "CN", Cidr := [{ Ip := [1, 0, 0, 0], Prefix := 8 }] }] "geoip.db"
    ["us"]).2.1
    (by
      have hc : (write (trieExt storedOrder [] (.error "no database") none ([], none))
          ⟨fun _ => none, []⟩ TrieNode.Empty
          (parseEntries latin1Table
            [{ CountryCode := "Us", Cidr := [{ Ip := [2, 0, 0, 0], Prefix := 8 }] },
              { CountryCode := "CN", Cidr := [{ Ip := [1, 0, 0, 0], Prefix := 8 }] }] [])
          "geoip.db" ["us"]).world.calls =
          [Call.Insert { IP := [2, 0, 0, 0], Mask := [255, 0, 0, 0] } "us" true,
            Call.Create "geoip.db" true, Call.WriteTo true] := by decide
      intro n v h
      have h' : Call.Insert n v false ∈
          [Call.Insert { IP := [2, 0, 0, 0], Mask := [255, 0, 0, 0] } "us" true,
            Call.Create "geoip.db" true, Call.WriteTo true] := by
        rw [← hc]
        exact h
      simp at h')
    { CountryCode := "Us", Cidr := [{ Ip := [2, 0, 0, 0], Prefix := 8 }] } (by decide)
    { Ip := [2, 0, 0, 0], Prefix := 8 } (by decide)).mpr (Or.inr (by decide))

/-- C3: with the overlapping prefixes 10.0.0.0/8 under "a" and 10.1.0.0/16 under "b" and no
allow-list, two valid enumeration orders of the same data map make `write` succeed with
different labels for the address 10.1.2.3: "b" in stored order, "a" in reverse order. -/
theorem write_depends_on_enumeration_order :
    (reverseOrder 132 overlapMap).Perm (storedOrder 132 overlapMap) ∧
      (write (trieExt storedOrder [] (.error "no database") none ([], none)) emptyWorld
        TrieNode.Empty overlapMap "geoip.db" []).err = none ∧
      (write (trieExt reverseOrder [] (.error "no database") none ([], none)) emptyWorld
        TrieNode.Empty overlapMap "geoip.db" []).err = none ∧
      (write (trieExt storedOrder [] (.error "no database") none ([], none)) emptyWorld
        TrieNode.Empty overlapMap "geoip.db" []).writer.lookup (addressBits [10, 1, 2, 3]) =
          some "b" ∧
      (write (trieExt reverseOrder [] (.error "no database") none ([], none)) emptyWorld
        TrieNode.Empty overlapMap "geoip.db" []).writer.lookup (addressBits [10, 1, 2, 3]) =
          some "a" :=
  ⟨List.reverse_perm _, by decide, by decide, by decide, by decide⟩

/-- C4 (as the claim states it, refuted): `WriteTo` fails with the capacity error and `write`
returns it, yet the output file, absent before, now exists (empty); and an existing output
file with content `[1, 2, 3]` is left truncated. -/
theorem write_error_leaves_output_file :
    (write (trieExt storedOrder [] (.error "no database") none ([], some "EncodingOverflow"))
        emptyWorld TrieNode.Empty overlapMap "geoip.db" []).err = some "EncodingOverflow" ∧
      emptyWorld.files "geoip.db" = none ∧
      (write (trieExt storedOrder [] (.error "no database") none ([], some "EncodingOverflow"))
        emptyWorld TrieNode.Empty overlapMap "geoip.db" []).world.files "geoip.db" = some [] ∧
      (write (trieExt storedOrder [] (.error "no database") none ([], some "EncodingOverflow"))
        ⟨oneFile "geoip.db" [1, 2, 3], []⟩ TrieNode.Empty overlapMap "geoip.db" []).err =
          some "EncodingOverflow" ∧
      (write (trieExt storedOrder [] (.error "no database") none ([], some "EncodingOverflow"))
        ⟨oneFile "geoip.db" [1, 2, 3], []⟩ TrieNode.Empty overlapMap "geoip.db" []).world.files
          "geoip.db" = some [] := by
  decide

/-- C4 (amended): `write` fails closed before the encode step. If an insert fails or the file
cannot be created, `write` returns an error and no file is created or modified. If `WriteTo`
fails, `write` returns its error, and the output file, already created or truncated, holds the
bytes `WriteTo` wrote. -/
theorem write_fails_closed_before_encode {T : Type} (ext : Ext T) (files : Files) (writer : T)
    (dataMap : GoMap (List IPNet)) (output : String) (codes : List String) :
    (((∃ n v, Call.Insert n v false ∈
          (write ext ⟨files, []⟩ writer dataMap output codes).world.calls) ∨
        Call.Create output false ∈
          (write ext ⟨files, []⟩ writer dataMap output codes).world.calls) →
      (write ext ⟨files, []⟩ writer dataMap output codes).err ≠ none ∧
        (write ext ⟨files, []⟩ writer dataMap output codes).world.files = files) ∧
      (Call.WriteTo false ∈ (write ext ⟨files, []⟩ writer dataMap output codes).world.calls →
        (write ext ⟨files, []⟩ writer dataMap output codes).err ≠ none ∧
          (write ext ⟨files, []⟩ writer dataMap output codes).err =
            (ext.WriteTo (write ext ⟨files, []⟩ writer dataMap output codes).writer).2 ∧
          (write ext ⟨files, []⟩ writer dataMap output codes).world.files output =
            some (ext.WriteTo (write ext ⟨files, []⟩ writer dataMap output codes).writer).1) := by
  obtain ⟨hfiles, evs, hcalls, hgood, _, hall⟩ :=
    insertEntries_spec ext (writeCodeMap ext dataMap codes) (ext.range 132 dataMap) writer
      ⟨files, []⟩
  simp only [List.nil_append] at hcalls
  have hnw : ∀ ok, Call.WriteTo ok ∉ evs := by
    intro ok h
    obtain ⟨n, v, ok', data, hc, _⟩ := hall _ h
    cases hc
  have hnc : ∀ ok, Call.Create output ok ∉ evs := by
    intro ok h
    obtain ⟨n, v, ok', data, hc, _⟩ := hall _ h
    cases hc
  rw [write_eq]
  cases herr : (insertEntries ext (writeCodeMap ext dataMap codes) (ext.range 132 dataMap) writer
      ⟨files, []⟩).err with
  | some e =>
    simp only
    refine ⟨fun _ => ⟨by simp [herr], hfiles⟩, ?_⟩
    intro h
    rw [hcalls] at h
    exact absurd h (hnw false)
  | none =>
    simp only
    have hev := hgood herr
    cases hcreate : ext.Create (insertEntries ext (writeCodeMap ext dataMap codes)
        (ext.range 132 dataMap) writer ⟨files, []⟩).world.files output with
    | some e =>
      simp only
      refine ⟨fun _ => ⟨by simp, hfiles⟩, ?_⟩
      intro h
      simp only [World.log, hcalls, List.mem_append, List.mem_singleton] at h
      rcases h with h | h
      · exact absurd h (hnw false)
      · cases h
    | none =>
      simp only
      constructor
      · intro h
        exfalso
        simp only [hcalls, List.mem_append, List.mem_singleton] at h
        rcases h with ⟨n, v, (h | h) | h⟩ | (h | h) | h
        · rw [hev] at h
          exact not_failed_mem_okCalls _ _ n v h
        · cases h
        · cases h
        · exact hnc false h
        · cases h
        · cases h
      · intro h
        simp only [hcalls, List.mem_append, List.mem_singleton] at h
        rcases h with (h | h) | h
        · exact absurd h (hnw false)
        · cases h
        · simp only [Call.WriteTo.injEq] at h
          refine ⟨?_, trivial, put_same _ _ _⟩
          intro hn
          rw [hn] at h
          simp at h

/-- The run of C4 (amended) with an insert that fails (a 3-byte address): `write` returns the
error and the existing output file keeps its content. -/
theorem write_fails_closed_before_encode_witness :
    (write (trieExt storedOrder [] (.error "no database") none ([], none))
        ⟨oneFile "geoip.db" [1, 2, 3], []⟩ TrieNode.Empty
        [("cn", [{ IP := [1, 2, 3], Mask := [] }])] "geoip.db" []).err ≠ none ∧
      (write (trieExt storedOrder [] (.error "no database") none ([], none))
        ⟨oneFile "geoip.db" [1, 2, 3], []⟩ TrieNode.Empty
        [("cn", [{ IP := [1, 2, 3], Mask := [] }])] "geoip.db" []).world.files =
          oneFile "geoip.db" [1, 2, 3] :=
  (write_fails_closed_before_encode (trieExt storedOrder [] (.error "no database") none ([], none))
    (oneFile "geoip.db" [1, 2, 3]) TrieNode.Empty [("cn", [{ IP := [1, 2, 3], Mask := [] }])]
    "geoip.db" []).1
    (Or.inl ⟨{ IP := [1, 2, 3], Mask := [] }, "cn", by decide⟩)

/-- C5: when the reader finds a database whose declared type is not "sing-geoip", `open`
answers the error "invalid sing-geoip database" and its only call is the reader's, so the
loader is not called; the type `newWriter` declares is that same string, and a database
declaring the type of `newWriter` passes the check and is handed to the loader. -/
theorem open_rejects_other_database_type {T : Type} (ext : Ext T) (w : World) (path : String)
    (codes : List String) (metadata : Metadata)
    (hreader : ext.ReaderOpen w.files path = .ok metadata) :
    (metadata.DatabaseType ≠ "sing-geoip" →
      (open' ext w path codes).1 = .error "invalid sing-geoip database" ∧
        (open' ext w path codes).2.calls = w.calls ++ [Call.ReaderOpen path] ∧
        ∀ p opts, Call.Load p opts ∈ (open' ext w path codes).2.calls →
          Call.Load p opts ∈ w.calls) ∧
      (∀ fresh, (newWriterOptions fresh).DatabaseType = "sing-geoip") ∧
      (∀ fresh, metadata.DatabaseType = (newWriterOptions fresh).DatabaseType →
        (open' ext w path codes).1 =
            ext.Load w.files path (openOptions metadata.Languages codes) ∧
          (open' ext w path codes).2.calls =
            w.calls ++ [Call.ReaderOpen path,
              Call.Load path (openOptions metadata.Languages codes)]) := by
  refine ⟨?_, fun _ => rfl, ?_⟩
  · intro htype
    have hopen : open' ext w path codes =
        (.error "invalid sing-geoip database", w.log (Call.ReaderOpen path)) := by
      simp only [open', hreader]
      rw [if_pos htype]
    rw [hopen]
    refine ⟨rfl, rfl, ?_⟩
    intro p opts h
    simp only [World.log, List.mem_append, List.mem_singleton] at h
    rcases h with h | h
    · exact h
    · cases h
  · intro fresh htype
    have htype' : ¬ metadata.DatabaseType ≠ "sing-geoip" := by
      rw [htype]
      simp [newWriterOptions]
    have hopen : open' ext w path codes =
        (ext.Load w.files path (openOptions metadata.Languages codes),
          (w.log (Call.ReaderOpen path)).log
            (Call.Load path (openOptions metadata.Languages codes))) := by
      simp only [open', hreader]
      rw [if_neg htype']
    rw [hopen]
    exact ⟨rfl, by simp [World.log]⟩

/-- The run of C5 on a database of type "GeoLite2-Country": the error, and one reader call. -/
theorem open_rejects_other_database_type_witness :
    (open' (trieExt storedOrder [] (.ok ({ DatabaseType := "GeoLite2-Country", Languages := ["en"] },
        TrieNode.Leaf "us")) none ([], none))
        ⟨oneFile "geoip.db" [1, 2, 3], []⟩ "geoip.db" ["cn"]).1 =
        .error "invalid sing-geoip database" ∧
      (open' (trieExt storedOrder [] (.ok ({ DatabaseType := "GeoLite2-Country", Languages := ["en"] },
        TrieNode.Leaf "us")) none ([], none))
        ⟨oneFile "geoip.db" [1, 2, 3], []⟩ "geoip.db" ["cn"]).2.calls =
        [Call.ReaderOpen "geoip.db"] :=
  match (open_rejects_other_database_type
      (trieExt storedOrder [] (.ok ({ DatabaseType := "GeoLite2-Country", Languages := ["en"] },
        TrieNode.Leaf "us")) none ([], none))
      ⟨oneFile "geoip.db" [1, 2, 3], []⟩ "geoip.db" ["cn"]
      { DatabaseType := "GeoLite2-Country", Languages := ["en"] } rfl).1 (by decide) with
  | ⟨herr, hcalls, _⟩ => ⟨herr, hcalls⟩

/-- C6 (as the claim states it, refuted): for a 3-byte address, and for a 4-byte address with
prefix length 33, `parse` succeeds and stores a net with a nil mask. -/
theorem parse_accepts_malformed_cidr :
    parse latin1Table
        (fun _ => .ok [{ CountryCode := "cn", Cidr := [{ Ip := [1, 2, 3], Prefix := 8 }] }]) [] =
        .ok [("cn", [{ IP := [1, 2, 3], Mask := [] }])] ∧
      parse latin1Table
        (fun _ => .ok [{ CountryCode := "cn", Cidr := [{ Ip := [1, 0, 0, 0], Prefix := 33 }] }])
        [] = .ok [("cn", [{ IP := [1, 0, 0, 0], Mask := [] }])] :=
  ⟨rfl, rfl⟩

/-- C6 (amended): `parse` never fails on a decoded list. For every CIDR of every entry the map
holds, under the lower-cased country code, a net with the raw address bytes; its mask has
exactly `p` leading one-bits over `8*len` bits when the address has 4 or 16 bytes and
`p <= 8*len`, and is nil otherwise. -/
theorem parse_builds_prefix_unchecked (table : Char → Char)
    (unmarshal : Bytes → Except String (List GeoIP)) (binary : Bytes) (entries : List GeoIP) (hdecode : unmarshal binary = .ok entries) :
    ∃ m, parse table unmarshal binary = .ok m ∧
      ∀ e ∈ entries, ∀ cidr ∈ e.Cidr,
        ∃ nets, m.get? (ToLower table e.CountryCode) = some nets ∧
          ∃ net ∈ nets, net.IP = cidr.Ip ∧
            ((cidr.Ip.length = 4 ∨ cidr.Ip.length = 16) → cidr.Prefix ≤ 8 * cidr.Ip.length →
              bitsOf net.Mask = List.replicate cidr.Prefix true ++
                List.replicate (8 * cidr.Ip.length - cidr.Prefix) false) ∧
            (¬ (cidr.Ip.length = 4 ∨ cidr.Ip.length = 16) ∨ 8 * cidr.Ip.length < cidr.Prefix →
              net.Mask = []) := by
  refine ⟨parseEntries table entries [], by simp [parse, hdecode], ?_⟩
  intro e he cidr hcidr
  have hne : e.Cidr ≠ [] := List.ne_nil_of_mem hcidr
  rw [ToLower_eq]
  have hkey : lowerCaseOf table e.CountryCode ∈ (parseEntries table entries []).keys :=
    (parseEntries_keys table entries _).mpr ⟨e, he, hne, rfl⟩
  refine ⟨cidrsOf table entries (lowerCaseOf table e.CountryCode),
    parseEntries_value table entries _ hkey, cidrToIPNet cidr, ?_, rfl, ?_, ?_⟩
  · unfold cidrsOf
    exact List.mem_flatMap.mpr ⟨e, List.mem_filter.mpr ⟨he, by simp⟩,
      List.mem_map.mpr ⟨cidr, hcidr, rfl⟩⟩
  · intro hlen hp
    exact CIDRMask_valid cidr.Prefix cidr.Ip.length hlen hp
  · intro hbad
    exact CIDRMask_invalid cidr.Prefix cidr.Ip.length hbad

/-- The run of C6 (amended) on 10.0.0.0/9 under "CN" and a 3-byte address under "us". -/
theorem parse_builds_prefix_unchecked_witness :
    ∃ m, parse latin1Table
        (fun _ => .ok [{ CountryCode := "CN", Cidr := [{ Ip := [10, 0, 0, 0], Prefix := 9 }] },
        { CountryCode := "us", Cidr := [{ Ip := [1, 2, 3], Prefix := 8 }] }]) [7] = .ok m ∧
      m = [("cn", [{ IP := [10, 0, 0, 0], Mask := [255, 128, 0, 0] }]),
        ("us", [{ IP := [1, 2, 3], Mask := [] }])] :=
  match parse_builds_prefix_unchecked latin1Table
      (fun _ => .ok [{ CountryCode := "CN", Cidr := [{ Ip := [10, 0, 0, 0], Prefix := 9 }] },
        { CountryCode := "us", Cidr := [{ Ip := [1, 2, 3], Prefix := 8 }] }]) [7] _ rfl with
  | ⟨m, hm, _⟩ => ⟨m, hm, by cases hm; rfl⟩

/-- C7: on an existing "sing-geoip" database `open` passes the loader options whose
IPv4-aliasing and reserved-network flags are Go's zero values (aliasing enabled, reserved
networks excluded), whereas `newWriter` sets both flags; only the replace inserter agrees. -/
theorem open_options_lack_newWriter_flags :
    (open' (trieExt storedOrder [] (.ok ({ DatabaseType := "sing-geoip", Languages := ["cn"] },
        TrieNode.Leaf "cn")) none ([], none))
        ⟨oneFile "geoip.db" [1, 2, 3], []⟩ "geoip.db" ["us"]).2.calls =
        [Call.ReaderOpen "geoip.db",
          Call.Load "geoip.db"
            { DatabaseType := "", Languages := ["cn", "us"], IPVersion := 0, RecordSize := 0,
              Inserter := InserterFunc.ReplaceWith, DisableIPv4Aliasing := false,
              IncludeReservedNetworks := false }] ∧
      newWriterOptions ["cn", "us"] =
        { DatabaseType := "sing-geoip", Languages := ["cn", "us"], IPVersion := 6,
          RecordSize := 24, Inserter := InserterFunc.ReplaceWith, DisableIPv4Aliasing := true,
          IncludeReservedNetworks := true } ∧
      (∀ languages codes : List String,
        (openOptions languages codes).Inserter = (newWriterOptions codes).Inserter ∧
          (openOptions languages codes).DisableIPv4Aliasing = false ∧
          (openOptions languages codes).IncludeReservedNetworks = false ∧
          (newWriterOptions codes).DisableIPv4Aliasing = true ∧
          (newWriterOptions codes).IncludeReservedNetworks = true) :=
  ⟨by decide, rfl, fun _ _ => ⟨rfl, rfl, rfl, rfl, rfl⟩⟩

/-- C8: after a successful decode `parse` returns a map with pairwise distinct keys. Its keys
are exactly the lower-cased country codes of the entries with at least one CIDR, where
lower-casing replaces every character by its lower-case form (`lowerCaseOf`), and the source's
`strings.ToLower` computes just that. The list at a key is the concatenation, in input order,
of the nets of all entries whose country code lower-cases to that key. Every key is lower-case
(it has no ASCII capital letter and no character the case table changes, and `strings.ToLower`
leaves it unchanged): for a country code of ASCII characters outright, and for every key when
the case table of the library is stable. -/
theorem parse_groups_by_lower_case_code (table : Char → Char)
    (unmarshal : Bytes → Except String (List GeoIP)) (binary : Bytes) (entries : List GeoIP)
    (hdecode : unmarshal binary = .ok entries) :
    ∃ m, parse table unmarshal binary = .ok m ∧ m.keys.Nodup ∧
      (∀ k, k ∈ m.keys ↔ ∃ e ∈ entries, e.Cidr ≠ [] ∧ lowerCaseOf table e.CountryCode = k) ∧
      (∀ s, ToLower table s = lowerCaseOf table s) ∧
      (∀ k ∈ m.keys, m.get? k = some (cidrsOf table entries k)) ∧
      (∀ k nets, (k, nets) ∈ m ↔ k ∈ m.keys ∧ nets = cidrsOf table entries k) ∧
      (∀ e ∈ entries, e.Cidr ≠ [] → (∀ c ∈ e.CountryCode.data, c.toNat ≤ 127) →
        IsLowerCase table (lowerCaseOf table e.CountryCode) ∧
          ToLower table (lowerCaseOf table e.CountryCode) = lowerCaseOf table e.CountryCode) ∧
      (CaseTableStable table → ∀ k ∈ m.keys, IsLowerCase table k ∧ ToLower table k = k) := by
  have hnd := parseEntries_nodup table entries [] (by simp [GoMap.keys])
  refine ⟨parseEntries table entries [], by simp [parse, hdecode], hnd,
    parseEntries_keys table entries, ToLower_eq table, parseEntries_value table entries,
    ?_, ?_, ?_⟩
  · intro k nets
    constructor
    · intro h
      have hk : k ∈ (parseEntries table entries []).keys := List.mem_map.mpr ⟨(k, nets), h, rfl⟩
      have hget := get?_of_mem _ k nets hnd h
      rw [parseEntries_value table entries k hk] at hget
      exact ⟨hk, (Option.some.inj hget).symm⟩
    · rintro ⟨hk, rfl⟩
      exact mem_of_get? _ k _ (parseEntries_value table entries k hk)
  · intro e _ _ hascii
    have hlow : IsLowerCase table (lowerCaseOf table e.CountryCode) :=
      lowerCaseOf_isLowerCase table e.CountryCode (fun c hc h127 => by
        have := hascii c hc
        omega)
    exact ⟨hlow, by rw [ToLower_eq, lowerCaseOf_fixed table _ hlow]⟩
  · intro hstable k hk
    obtain ⟨e, _, _, rfl⟩ := (parseEntries_keys table entries k).mp hk
    have hlow : IsLowerCase table (lowerCaseOf table e.CountryCode) :=
      lowerCaseOf_isLowerCase table e.CountryCode (fun c _ h127 => hstable c h127)
    exact ⟨hlow, by rw [ToLower_eq, lowerCaseOf_fixed table _ hlow]⟩

/-- The run of C8 on the entries "ÉA", "Us", "us" (no CIDR), "éa" with the Latin-1 case
table: the keys "éa", holding both of its nets in input order, and "us"; both are lower-case. -/
theorem parse_groups_by_lower_case_code_witness :
    ∃ m, parse latin1Table
        (fun _ => .ok [{ CountryCode := "ÉA", Cidr := [{ Ip := [1, 0, 0, 0], Prefix := 8 }] },
          { CountryCode := "Us", Cidr := [{ Ip := [3, 0, 0, 0], Prefix := 8 }] },
          { CountryCode := "us", Cidr := [] },
          { CountryCode := "éa", Cidr := [{ Ip := [2, 0, 0, 0], Prefix := 7 }] }]) [7] = .ok m ∧
      m = [("éa", [{ IP := [1, 0, 0, 0], Mask := [255, 0, 0, 0] },
          { IP := [2, 0, 0, 0], Mask := [254, 0, 0, 0] }]),
        ("us", [{ IP := [3, 0, 0, 0], Mask := [255, 0, 0, 0] }])] ∧
      ∀ k ∈ m.keys, IsLowerCase latin1Table k ∧ ToLower latin1Table k = k :=
  match parse_groups_by_lower_case_code latin1Table
      (fun _ => .ok [{ CountryCode := "ÉA", Cidr := [{ Ip := [1, 0, 0, 0], Prefix := 8 }] },
        { CountryCode := "Us", Cidr := [{ Ip := [3, 0, 0, 0], Prefix := 8 }] },
        { CountryCode := "us", Cidr := [] },
        { CountryCode := "éa", Cidr := [{ Ip := [2, 0, 0, 0], Prefix := 7 }] }]) [7] _ rfl with
  | ⟨m, hm, _, _, _, _, _, _, hlow⟩ => ⟨m, hm, by cases hm; decide, hlow latin1Table_stable⟩

/-- C9: an incremental run of `local` with an empty allow-list. The existing database declares
the languages `["cn"]`, the input holds 1.0.0.0/8 under "us"; `open` passes the loader the
languages `["cn"]` and `write` then inserts the label "us", which is not in that list. -/
theorem local_inserts_undeclared_label :
    (local' (trieExt storedOrder
        [{ CountryCode := "US", Cidr := [{ Ip := [1, 0, 0, 0], Prefix := 8 }] }]
        (.ok ({ DatabaseType := "sing-geoip", Languages := ["cn"] }, TrieNode.Empty)) none
        ([], none))
      ⟨fun p => if p = "geoip.dat" ∨ p = "geoip.db" then some [] else none, []⟩
      "geoip.dat" "geoip.db" []).2.calls =
        [Call.ReaderOpen "geoip.db",
          Call.Load "geoip.db"
            { DatabaseType := "", Languages := ["cn"], IPVersion := 0, RecordSize := 0,
              Inserter := InserterFunc.ReplaceWith, DisableIPv4Aliasing := false,
              IncludeReservedNetworks := false },
          Call.Insert { IP := [1, 0, 0, 0], Mask := [255, 0, 0, 0] } "us" true,
          Call.Create "geoip.db" true, Call.WriteTo true] ∧
      "us" ∉ ["cn"] := by
  decide

/-- C10: on an existing "sing-geoip" database `open` hands the loader options whose language
list is the existing list followed by the requested codes that do not occur in it, in their
order; its elements are those of the two lists together, and it has no duplicates when neither
the existing list nor the requested list has any. -/
theorem open_passes_merged_languages {T : Type} (ext : Ext T) (w : World) (path : String)
    (codes : List String) (metadata : Metadata)
    (hreader : ext.ReaderOpen w.files path = .ok metadata)
    (htype : metadata.DatabaseType = "sing-geoip") :
    ∃ opts, (open' ext w path codes).2.calls =
        w.calls ++ [Call.ReaderOpen path, Call.Load path opts] ∧
      (open' ext w path codes).1 = ext.Load w.files path opts ∧
      opts.Languages =
        metadata.Languages ++ codes.filter (fun c => decide (c ∉ metadata.Languages)) ∧
      (∀ c, c ∈ opts.Languages ↔ c ∈ metadata.Languages ∨ c ∈ codes) ∧
      (metadata.Languages.Nodup → codes.Nodup → opts.Languages.Nodup) := by
  have htype' : ¬ metadata.DatabaseType ≠ "sing-geoip" := by simp [htype]
  have hopen : open' ext w path codes =
      (ext.Load w.files path (openOptions metadata.Languages codes),
        (w.log (Call.ReaderOpen path)).log
          (Call.Load path (openOptions metadata.Languages codes))) := by
    simp only [open', hreader]
    rw [if_neg htype']
  refine ⟨openOptions metadata.Languages codes, by simp [hopen, World.log], by rw [hopen],
    openOptions_languages _ _, ?_, ?_⟩
  · intro c
    rw [openOptions_languages]
    simp only [List.mem_append, List.mem_filter, decide_eq_true_eq]
    by_cases hc : c ∈ metadata.Languages
    · simp [hc]
    · simp [hc]
  · intro h1 h2
    rw [openOptions_languages]
    refine List.Nodup.append h1 (h2.filter _) ?_
    intro c hc hf
    simp only [List.mem_filter, decide_eq_true_eq] at hf
    exact hf.2 hc

/-- The run of C10 on the existing languages `["cn", "us"]` and the codes `["us", "jp"]`. -/
theorem open_passes_merged_languages_witness :
    ∃ opts : Options,
      (open' (trieExt storedOrder []
          (.ok ({ DatabaseType := "sing-geoip", Languages := ["cn", "us"] }, TrieNode.Empty)) none
          ([], none))
        ⟨oneFile "geoip.db" [1, 2, 3], []⟩ "geoip.db" ["us", "jp"]).2.calls =
          [Call.ReaderOpen "geoip.db", Call.Load "geoip.db" opts] ∧
        opts.Languages = ["cn", "us", "jp"] :=
  match open_passes_merged_languages
      (trieExt storedOrder []
        (.ok ({ DatabaseType := "sing-geoip", Languages := ["cn", "us"] }, TrieNode.Empty)) none
        ([], none))
      ⟨oneFile "geoip.db" [1, 2, 3], []⟩ "geoip.db" ["us", "jp"]
      { DatabaseType := "sing-geoip", Languages := ["cn", "us"] } rfl rfl with
  | ⟨opts, hcalls, _, hlang, _⟩ => ⟨opts, hcalls, hlang⟩

end SingGeoip
